import Mathlib

/-!
Shallow embedding of the `assert-call` crate (pattern-matching automaton over
recorded call traces, recording substrate, diagnostic formatter), together with
theorems settling the specification claims about it.

Source files embedded: `src/lib.rs` (the `Call` pattern tree, `Call::next`,
`Call::verify_nexts`, `Call::verify`, `CallRecorder::result_with_msg`, the
`ToCall` conversions) and `src/records.rs` (`Local`/`Global` storage,
`take_actual`, `Records::push`, `Records::fmt_backtrace`).
-/

namespace AssertCall

/-- One record of a `call!` invocation (struct `Record` in `src/lib.rs`).
The `backtrace` field of the source is an opaque payload consumed only for
display; the embedding keeps the one bit the formatter inspects, namely
whether the backtrace status is `Captured`.  `thread_id` is modelled as a
natural number. -/
structure Record where
  id : String
  file : String
  line : Nat
  backtraceCaptured : Bool
  threadId : Nat
deriving DecidableEq, Repr

/-- The pattern tree (enum `Call` in `src/lib.rs`).  The Rust `VecDeque`
of `Seq` and the `Vec`s of `Par`/`Any` are both modelled as Lean lists. -/
inductive Call where
  | Id (id : String)
  | Seq (list : List Call)
  | Par (s : List Call)
  | Any (s : List Call)

/-- Outcome of one step of `Call::next`: `none` models `Ok(())` (the event was
consumed), `some es` models `Err(es)` (rejected, expecting `es`). -/
abbrev StepRes := Option (List String)

mutual

/-- `Call::next` from `src/lib.rs` (lines 274-327).  Rust mutates `self` in
place and returns a `Result`; the embedding returns the mutated node paired
with the outcome.  `p` is the incoming input: `some r` for a real record,
`none` for the end-of-trace sentinel. -/
def Call.next : Call → Option Record → Call × StepRes
  | .Id i, p =>
      if some i = p.map (·.id) then (.Seq [], none)
      else (.Id i, some [i])
  | .Seq list, p => Call.nextSeqGo list p
  | .Par s, p =>
      let r := Call.nextParGo s p
      (.Par r.1, r.2)
  | .Any s, p =>
      let r := Call.nextAnyGo s p
      if r.2.1 then (.Any r.1, none)
      else if r.2.2.1 then (.Any r.1, some [])
      else (.Any r.1, some r.2.2.2)

/-- The `while !list.is_empty()` loop of the `Call::Seq` arm of `Call::next`:
step the front; a front rejecting with an empty expected set is popped and the
same input is retried; any other outcome is returned with the (mutated) front
left in place.  An exhausted list yields `Err(Vec::new())`. -/
def Call.nextSeqGo : List Call → Option Record → Call × StepRes
  | [], _ => (.Seq [], some [])
  | c :: rest, p =>
      match c.next p with
      | (_, some []) => Call.nextSeqGo rest p
      | (c₁, r) => (.Seq (c₁ :: rest), r)

/-- The `for i in s.iter_mut()` loop of the `Call::Par` arm of `Call::next`:
each child is stepped (and keeps its in-place mutation) until one consumes,
which short-circuits with `Ok`; otherwise the expected sets are concatenated
into `Err(es)`. -/
def Call.nextParGo : List Call → Option Record → List Call × StepRes
  | [], _ => ([], some [])
  | c :: rest, p =>
      match c.next p with
      | (c₁, none) => (c₁ :: rest, none)
      | (c₁, some e) =>
          match Call.nextParGo rest p with
          | (rest₁, none) => (c₁ :: rest₁, none)
          | (rest₁, some es) => (c₁ :: rest₁, some (e ++ es))

/-- The `s.retain_mut(...)` loop of the `Call::Any` arm of `Call::next`:
returns the retained (consuming) children together with the `is_ok` flag,
the `is_end` flag and the accumulated expected set `es`. -/
def Call.nextAnyGo : List Call → Option Record → List Call × Bool × Bool × List String
  | [], _ => ([], false, false, [])
  | c :: rest, p =>
      match c.next p, Call.nextAnyGo rest p with
      | (c₁, none), (rest₁, _, isEnd, es) => (c₁ :: rest₁, true, isEnd, es)
      | (_, some e), (rest₁, isOk, isEnd, es) =>
          (rest₁, isOk, isEnd || e.isEmpty, e ++ es)

end

/-- The error value built by a failing verification (struct `CallMismatchError`
in `src/lib.rs`; the `thread_id` field, taken from the ambient thread, is
modelled as a parameter threaded in by the caller and is irrelevant to the
claims proved here, so it is omitted). -/
structure CallMismatchError where
  msg : String
  actual : List Record
  expect : List String
  mismatchIndex : Nat
deriving DecidableEq, Repr

/-- `Call::verify_next` from `src/lib.rs` (lines 263-272): run one step; an
error at the end sentinel whose expected set is empty is accepted, any other
error becomes a `CallMismatchError` carrying the raw expected set and the
current index. -/
def Call.verifyNext (c : Call) (index : Nat) (a : Option Record) :
    Call × Option (List String × Nat) :=
  match c.next a with
  | (c₁, some e) =>
      if a.isNone && e.isEmpty then (c₁, none)
      else (c₁, some (e, index))
  | (c₁, none) => (c₁, none)

/-- The `for index in 0..=actual.len()` loop of `Call::verify_nexts`
(`src/lib.rs` lines 257-262), unrolled as recursion on the remaining index
range; `actual.get(index)` is `actual[index]?`. -/
def Call.verifyNextsFrom (actual : List Record) : Call → Nat → Option (List String × Nat)
  | c, index =>
    if index ≤ actual.length then
      match c.verifyNext index actual[index]? with
      | (_, some e) => some e
      | (c₁, none) => Call.verifyNextsFrom actual c₁ (index + 1)
    else none
termination_by _ index => actual.length + 1 - index
decreasing_by omega

/-- `Call::verify_nexts` (`src/lib.rs` lines 257-262): `Ok(())` is modelled as
`none`, a mismatch as `some (raw expected set, index)`. -/
def Call.verifyNexts (c : Call) (actual : List Record) : Option (List String × Nat) :=
  Call.verifyNextsFrom actual c 0

/-- Model of `Vec::sort` on the expected set (`e.expect.sort()` in
`Call::verify`): a stable sort; on a linear order any sort produces the unique
sorted permutation, so insertion sort is a faithful model. -/
def sortExpect (es : List String) : List String :=
  List.insertionSort (· ≤ ·) es

/-- Model of `Vec::dedup` (`e.expect.dedup()` in `Call::verify`): removes
consecutive duplicate elements, keeping the first of each run. -/
def dedupExpect : List String → List String
  | [] => []
  | [x] => [x]
  | x :: y :: xs =>
      if x = y then dedupExpect (x :: xs) else x :: dedupExpect (y :: xs)

/-- `Call::verify` from `src/lib.rs` (lines 245-256): run `verify_nexts` on
the (destructively advanced) pattern; on error, attach the trace, sort and
dedup the expected set, and set the message. -/
def Call.verify (c : Call) (actual : List Record) (msg : String) :
    Except CallMismatchError Unit :=
  match c.verifyNexts actual with
  | none => .ok ()
  | some (e, index) =>
      .error { msg := msg, actual := actual,
               expect := dedupExpect (sortExpect e), mismatchIndex := index }

/-- Modelled from the spec (section 4.1, used only as the reference side of
the refinement claim C1): feed the events one at a time in trace order to the
single-step transition, requiring `Consumed` at every real event; after the
last real event perform exactly one step with the end sentinel, succeeding
iff it returns `Consumed` or `Rejected` with an empty expected set; the first
failure is reported with its position. -/
def runSpec : Call → List Record → Nat → Option (List String × Nat)
  | c, [], index =>
      match (c.next none).2 with
      | none => none
      | some [] => none
      | some e => some (e, index)
  | c, a :: rest, index =>
      match c.next (some a) with
      | (c₁, none) => runSpec c₁ rest (index + 1)
      | (_, some e) => some (e, index)

/-! ### Helper lemmas -/

theorem verifyNextsFrom_past (actual : List Record) (c : Call) (k : Nat)
    (h : actual.length < k) : Call.verifyNextsFrom actual c k = none := by
  rw [Call.verifyNextsFrom]
  simp [Nat.not_le.mpr h]

theorem verifyNextsFrom_eq_runSpec (actual : List Record) :
    ∀ n k c, actual.length - k = n → k ≤ actual.length →
      Call.verifyNextsFrom actual c k = runSpec c (actual.drop k) k := by
  intro n
  induction n with
  | zero =>
    intro k c hn hk
    have hk' : k = actual.length := by omega
    subst hk'
    rw [Call.verifyNextsFrom]
    have hget : actual[actual.length]? = none := List.getElem?_eq_none (Nat.le_refl _)
    have hdrop : actual.drop actual.length = [] := by simp
    rcases h : c.next none with ⟨c₁, r⟩
    cases r with
    | none =>
      simp [hget, hdrop, Call.verifyNext, h, runSpec,
        verifyNextsFrom_past actual c₁ (actual.length + 1) (Nat.lt_succ_self _)]
    | some e =>
      cases e with
      | nil =>
        simp [hget, hdrop, Call.verifyNext, h, runSpec,
          verifyNextsFrom_past actual c₁ (actual.length + 1) (Nat.lt_succ_self _)]
      | cons a as =>
        simp [hget, hdrop, Call.verifyNext, h, runSpec]
  | succ n ih =>
    intro k c hn hk
    have hklt : k < actual.length := by omega
    rw [Call.verifyNextsFrom]
    have hget : actual[k]? = some actual[k] := List.getElem?_eq_getElem hklt
    have hdrop : actual.drop k = actual[k] :: actual.drop (k + 1) :=
      List.drop_eq_getElem_cons hklt
    rcases h : c.next (some actual[k]) with ⟨c₁, r⟩
    cases r with
    | none =>
      have hrec := ih (k + 1) c₁ (by omega) (by omega)
      rw [hdrop, runSpec]
      simp only [Nat.le_of_lt hklt, if_true, hget, Call.verifyNext, h, hrec]
    | some e =>
      rw [hdrop, runSpec]
      simp only [Nat.le_of_lt hklt, if_true, hget, Call.verifyNext, h,
        Option.isNone_some, Bool.false_and, if_false]
      simp

theorem verifyNexts_eq_runSpec (c : Call) (actual : List Record) :
    Call.verifyNexts c actual = runSpec c actual 0 := by
  have := verifyNextsFrom_eq_runSpec actual actual.length 0 c (by omega) (by omega)
  simpa [Call.verifyNexts] using this

theorem dedupExpect_subset : ∀ (l : List String) (a : String),
    a ∈ dedupExpect l → a ∈ l
  | [], a => by simp [dedupExpect]
  | [x], a => by simp [dedupExpect]
  | x :: y :: xs, a => by
    rw [dedupExpect]
    split
    · intro h
      have h₁ := dedupExpect_subset (x :: xs) a h
      rcases List.mem_cons.mp h₁ with h₂ | h₂
      · exact List.mem_cons.mpr (Or.inl h₂)
      · exact List.mem_cons.mpr (Or.inr (List.mem_cons.mpr (Or.inr h₂)))
    · intro h
      rcases List.mem_cons.mp h with h₂ | h₂
      · exact List.mem_cons.mpr (Or.inl h₂)
      · exact List.mem_cons.mpr (Or.inr (dedupExpect_subset (y :: xs) a h₂))
termination_by l _ => l.length

theorem dedupExpect_sorted_lt : ∀ l : List String,
    l.Sorted (· ≤ ·) → (dedupExpect l).Sorted (· < ·)
  | [] => by simp [dedupExpect]
  | [x] => by simp [dedupExpect]
  | x :: y :: xs => by
    intro h
    have hx : ∀ b ∈ y :: xs, x ≤ b := (List.sorted_cons.mp h).1
    have hyxs : (y :: xs).Sorted (· ≤ ·) := (List.sorted_cons.mp h).2
    have hy : ∀ b ∈ xs, y ≤ b := (List.sorted_cons.mp hyxs).1
    rw [dedupExpect]
    split
    · rename_i hxy
      apply dedupExpect_sorted_lt (x :: xs)
      refine List.sorted_cons.mpr ⟨?_, (List.sorted_cons.mp hyxs).2⟩
      intro b hb
      exact hxy ▸ hy b hb
    · rename_i hxy
      have hxy' : x < y := lt_of_le_of_ne (hx y (List.mem_cons_self _ _)) hxy
      refine List.sorted_cons.mpr ⟨?_, dedupExpect_sorted_lt (y :: xs) hyxs⟩
      intro b hb
      rcases List.mem_cons.mp (dedupExpect_subset (y :: xs) b hb) with h₂ | h₂
      · exact h₂ ▸ hxy'
      · exact lt_of_lt_of_le hxy' (hy b h₂)
termination_by l => l.length

theorem sortDedup_sorted_nodup (es : List String) :
    (dedupExpect (sortExpect es)).Sorted (· ≤ ·) ∧ (dedupExpect (sortExpect es)).Nodup := by
  have hlt : (dedupExpect (sortExpect es)).Sorted (· < ·) :=
    dedupExpect_sorted_lt _ (List.sorted_insertionSort _ es)
  exact ⟨hlt.imp le_of_lt, hlt.nodup⟩

/-- A concrete record used by the evaluation witnesses. -/
def wRec (s : String) : Record := ⟨s, "lib.rs", 10, false, 0⟩

/-! ### Claims -/

/-- Claim C1: for every pattern and recorded trace, `verify` feeds the events
one at a time in trace order to the single-step transition `next`, requiring
`Consumed` at every real event, then performs exactly one additional step with
the end sentinel; it succeeds iff every real-event step consumed and the final
sentinel step returned `Consumed` or a rejection with empty expected set
(this behaviour is `runSpec`); any other outcome produces a mismatch error at
the first failing position whose expected list is sorted and deduplicated. -/
theorem claim_C1 (c : Call) (actual : List Record) (msg : String) :
    (Call.verify c actual msg = .ok () ↔ runSpec c actual 0 = none) ∧
    (∀ err, Call.verify c actual msg = .error err →
      ∃ raw, runSpec c actual 0 = some (raw, err.mismatchIndex) ∧
        err.expect = dedupExpect (sortExpect raw) ∧
        err.expect.Sorted (· ≤ ·) ∧ err.expect.Nodup ∧
        err.msg = msg ∧ err.actual = actual) := by
  have hrs : runSpec c actual 0 = Call.verifyNexts c actual :=
    (verifyNexts_eq_runSpec c actual).symm
  cases hv : Call.verifyNexts c actual with
  | none =>
    refine ⟨?_, ?_⟩
    · simp [Call.verify, hv, hrs]
    · intro err herr
      exfalso
      simp [Call.verify, hv] at herr
  | some pair =>
    rcases pair with ⟨raw, idx⟩
    refine ⟨?_, ?_⟩
    · simp [Call.verify, hv, hrs]
    · intro err herr
      have herr' : err = ⟨msg, actual, dedupExpect (sortExpect raw), idx⟩ := by
        simp [Call.verify, hv] at herr
        exact herr.symm
      subst herr'
      exact ⟨raw, by simp [hrs, hv], rfl, (sortDedup_sorted_nodup raw).1,
        (sortDedup_sorted_nodup raw).2, rfl, rfl⟩

/-- Witness for C1 at pattern `["1","3"]` and trace `["1","2"]` (the example
from the crate documentation): the mismatch is at position 1 expecting `3`. -/
theorem claim_C1_witness :
    ∃ raw, runSpec (Call.Seq [Call.Id "1", Call.Id "3"]) [wRec "1", wRec "2"] 0
        = some (raw, 1) ∧
      (["3"] : List String) = dedupExpect (sortExpect raw) ∧
      (["3"] : List String).Sorted (· ≤ ·) ∧ (["3"] : List String).Nodup ∧
      "m" = "m" ∧ [wRec "1", wRec "2"] = [wRec "1", wRec "2"] :=
  (claim_C1 (Call.Seq [Call.Id "1", Call.Id "3"]) [wRec "1", wRec "2"] "m").2
    ⟨"m", [wRec "1", wRec "2"], ["3"], 1⟩
    (by simp [Call.verify, Call.verifyNexts, Call.verifyNextsFrom, Call.verifyNext,
      Call.next, Call.nextSeqGo, wRec, sortExpect, dedupExpect,
      List.insertionSort, List.orderedInsert])

/-- Claim C5: zero-child nodes are the canonical completion state: stepping a
`Seq`, `Par` or `Any` with zero children on any input returns a rejection with
empty expected set (never `Consumed`, never a non-empty rejection), and an
`Id` node that consumes its matching event is replaced in place by the empty
`Seq`. -/
theorem claim_C5 (p : Option Record) (i : String) (r : Record) :
    Call.next (.Seq []) p = (.Seq [], some []) ∧
    Call.next (.Par []) p = (.Par [], some []) ∧
    Call.next (.Any []) p = (.Any [], some []) ∧
    (r.id = i → Call.next (.Id i) (some r) = (.Seq [], none)) := by
  refine ⟨?_, ?_, ?_, ?_⟩
  · simp [Call.next, Call.nextSeqGo]
  · simp [Call.next, Call.nextParGo]
  · simp [Call.next, Call.nextAnyGo]
  · intro h
    simp [Call.next, h]

/-- Witness for C5 at a record with id `a`. -/
theorem claim_C5_witness :
    Call.next (.Seq []) (some (wRec "a")) = (.Seq [], some []) ∧
    Call.next (.Par []) (some (wRec "a")) = (.Par [], some []) ∧
    Call.next (.Any []) (some (wRec "a")) = (.Any [], some []) ∧
    Call.next (.Id "a") (some (wRec "a")) = (.Seq [], none) := by
  have h := claim_C5 (some (wRec "a")) "a" (wRec "a")
  exact ⟨h.1, h.2.1, h.2.2.1, h.2.2.2 rfl⟩


/-! ### Characterizations of the per-variant loops -/

theorem nextSeqGo_all_empty (p : Option Record) :
    ∀ l : List Call, (∀ d ∈ l, (d.next p).2 = some []) →
      Call.nextSeqGo l p = (.Seq [], some []) := by
  intro l
  induction l with
  | nil => intro _; simp [Call.nextSeqGo]
  | cons c rest ih =>
    intro h
    have hc : (c.next p).2 = some [] := h c (List.mem_cons_self c rest)
    rcases hcp : c.next p with ⟨c₁, r⟩
    rw [hcp] at hc
    simp only at hc
    subst hc
    rw [Call.nextSeqGo, hcp]
    exact ih fun d hd => h d (List.mem_cons_of_mem c hd)

theorem nextSeqGo_decomp (p : Option Record) :
    ∀ (pre : List Call) (c : Call) (post : List Call),
      (∀ d ∈ pre, (d.next p).2 = some []) → (c.next p).2 ≠ some [] →
      Call.nextSeqGo (pre ++ c :: post) p = (.Seq ((c.next p).1 :: post), (c.next p).2) := by
  intro pre
  induction pre with
  | nil =>
    intro c post _ hc
    rcases hcp : c.next p with ⟨c₁, r⟩
    rw [hcp] at hc
    simp only at hc
    rw [List.nil_append, Call.nextSeqGo, hcp]
    match r, hc with
    | none, _ => simp [hcp]
    | some (a :: as), _ => simp [hcp]
    | some [], hc => exact absurd rfl hc
  | cons d pre ih =>
    intro c post h hc
    have hd : (d.next p).2 = some [] := h d (List.mem_cons_self d pre)
    rcases hdp : d.next p with ⟨d₁, r⟩
    rw [hdp] at hd
    simp only at hd
    subst hd
    rw [List.cons_append, Call.nextSeqGo, hdp]
    exact ih c post (fun x hx => h x (List.mem_cons_of_mem d hx)) hc

theorem nextParGo_all_reject (p : Option Record) :
    ∀ s : List Call, (∀ d ∈ s, (d.next p).2 ≠ none) →
      Call.nextParGo s p = (s.map (fun d => (d.next p).1),
        some (s.flatMap (fun d => ((d.next p).2).getD []))) := by
  intro s
  induction s with
  | nil => intro _; simp [Call.nextParGo]
  | cons c rest ih =>
    intro h
    have hc : (c.next p).2 ≠ none := h c (List.mem_cons_self c rest)
    rcases hcp : c.next p with ⟨c₁, r⟩
    rw [hcp] at hc
    simp only at hc
    match r, hc with
    | some e, _ =>
      rw [Call.nextParGo, hcp]
      rw [ih fun d hd => h d (List.mem_cons_of_mem c hd)]
      simp [hcp]
    | none, hc => exact absurd rfl hc

theorem nextParGo_commit (p : Option Record) :
    ∀ (pre : List Call) (c : Call) (post : List Call),
      (∀ d ∈ pre, (d.next p).2 ≠ none) → (c.next p).2 = none →
      Call.nextParGo (pre ++ c :: post) p =
        (pre.map (fun d => (d.next p).1) ++ (c.next p).1 :: post, none) := by
  intro pre
  induction pre with
  | nil =>
    intro c post _ hc
    rcases hcp : c.next p with ⟨c₁, r⟩
    rw [hcp] at hc
    simp only at hc
    subst hc
    rw [List.nil_append, Call.nextParGo, hcp]
    simp [hcp]
  | cons d pre ih =>
    intro c post h hc
    have hd : (d.next p).2 ≠ none := h d (List.mem_cons_self d pre)
    rcases hdp : d.next p with ⟨d₁, r⟩
    rw [hdp] at hd
    simp only at hd
    match r, hd with
    | some e, _ =>
      rw [List.cons_append, Call.nextParGo, hdp]
      rw [ih c post (fun x hx => h x (List.mem_cons_of_mem d hx)) hc]
      simp [hdp]
    | none, hd => exact absurd rfl hd

theorem nextAnyGo_spec (p : Option Record) :
    ∀ s : List Call,
      Call.nextAnyGo s p =
        ((s.filter (fun d => ((d.next p).2).isNone)).map (fun d => (d.next p).1),
         s.any (fun d => ((d.next p).2).isNone),
         s.any (fun d => decide ((d.next p).2 = some [])),
         s.flatMap (fun d => ((d.next p).2).getD [])) := by
  intro s
  induction s with
  | nil => simp [Call.nextAnyGo]
  | cons c rest ih =>
    rcases hcp : c.next p with ⟨c₁, r⟩
    cases r with
    | none =>
      rw [Call.nextAnyGo, hcp, ih]
      simp [hcp]
    | some e =>
      rw [Call.nextAnyGo, hcp, ih]
      cases e with
      | nil => simp [hcp, Bool.or_comm]
      | cons a as => simp [hcp, Bool.or_comm]


/-- Counterexample to claim C2 as stated: in
`Par [Seq [Seq [], Id "x"], Id "y"]` stepped on event `y`, the second child
consumes (the node returns `Consumed`), but the first sibling is NOT left
unchanged: its failed attempt popped its already-completed front, so the node
ends up as `Par [Seq [Id "x"], Seq []]` rather than the claimed
`Par [Seq [Seq [], Id "x"], Seq []]`. -/
theorem claim_C2_counterexample :
    (Call.next (.Par [.Seq [.Seq [], .Id "x"], .Id "y"]) (some (wRec "y"))).2 = none ∧
    (Call.next (.Par [.Seq [.Seq [], .Id "x"], .Id "y"]) (some (wRec "y"))).1 =
      .Par [.Seq [.Id "x"], .Seq []] ∧
    (Call.next (.Par [.Seq [.Seq [], .Id "x"], .Id "y"]) (some (wRec "y"))).1 ≠
      .Par [.Seq [.Seq [], .Id "x"], .Seq []] := by
  refine ⟨?_, ?_, ?_⟩ <;>
    simp [Call.next, Call.nextParGo, Call.nextSeqGo, wRec]

/-- Claim C2 (amended): for every `Par` node and incoming input, the step
tries each child in list order against that same input; the first child that
returns `Consumed` commits and the node returns `Consumed`: children after it
are untouched, while children tried before it keep whatever in-place mutation
their failed attempt made; if no child accepts, the node returns `Rejected`
with the concatenation of every child's expected set (empty sets contributing
nothing), every child keeping its mutation. -/
theorem claim_C2 (s : List Call) (p : Option Record) :
    ((∀ d ∈ s, (d.next p).2 ≠ none) →
      Call.next (.Par s) p = (.Par (s.map fun d => (d.next p).1),
        some (s.flatMap fun d => ((d.next p).2).getD []))) ∧
    (∀ pre c post, s = pre ++ c :: post →
      (∀ d ∈ pre, (d.next p).2 ≠ none) → (c.next p).2 = none →
      Call.next (.Par s) p =
        (.Par (pre.map (fun d => (d.next p).1) ++ (c.next p).1 :: post), none)) := by
  constructor
  · intro h
    simp only [Call.next]
    rw [nextParGo_all_reject p s h]
  · intro pre c post hs hpre hc
    subst hs
    simp only [Call.next]
    rw [nextParGo_commit p pre c post hpre hc]

/-- Witness for C2: in `Par [Id "a", Id "b"]` stepped on event `b`, the first
child rejects, the second consumes and the node consumes. -/
theorem claim_C2_witness :
    Call.next (.Par [.Id "a", .Id "b"]) (some (wRec "b")) =
      (.Par [.Id "a", .Seq []], none) := by
  have h := (claim_C2 [.Id "a", .Id "b"] (some (wRec "b"))).2
    [.Id "a"] (.Id "b") [] rfl
    (by intro d hd; simp at hd; subst hd; simp [Call.next, wRec])
    (by simp [Call.next, wRec])
  simpa [Call.next, wRec] using h

/-- Claim C3: for every `Seq` node and incoming input, the step delegates to
the front child while the list is non-empty; whenever the front rejects with
an empty expected set it is popped and the same input is retried against the
new front; otherwise the front's outcome is returned unchanged, with the
(possibly partially-matched) front left in place; a `Seq` with an empty list
(in particular one whose fronts were all exhausted) rejects with an empty
expected set. -/
theorem claim_C3 (l : List Call) (p : Option Record) :
    ((∀ d ∈ l, (d.next p).2 = some []) → Call.next (.Seq l) p = (.Seq [], some [])) ∧
    (∀ pre c post, l = pre ++ c :: post →
      (∀ d ∈ pre, (d.next p).2 = some []) → (c.next p).2 ≠ some [] →
      Call.next (.Seq l) p = (.Seq ((c.next p).1 :: post), (c.next p).2)) := by
  constructor
  · intro h
    simp only [Call.next]
    exact nextSeqGo_all_empty p l h
  · intro pre c post hs hpre hc
    subst hs
    simp only [Call.next]
    exact nextSeqGo_decomp p pre c post hpre hc

/-- Witness for C3: in `Seq [Seq [], Id "x"]` stepped on event `x`, the
exhausted front `Seq []` is popped, the retried front `Id "x"` consumes and
stays in place (as the empty `Seq` it decayed into). -/
theorem claim_C3_witness :
    Call.next (.Seq [.Seq [], .Id "x"]) (some (wRec "x")) =
      (.Seq [.Seq []], none) := by
  have h := (claim_C3 [.Seq [], .Id "x"] (some (wRec "x"))).2
    [.Seq []] (.Id "x") [] rfl
    (by intro d hd; simp at hd; subst hd; simp [Call.next, Call.nextSeqGo])
    (by simp [Call.next, wRec])
  simpa [Call.next, wRec] using h

/-- Claim C4: for every `Any` node and incoming input, every child is stepped:
children returning `Consumed` are retained with their mutation applied,
rejecting children are dropped; the node returns `Consumed` if at least one
child accepted, otherwise `Rejected` with empty expected set if some dropped
child's rejection carried an empty expected set, otherwise `Rejected` with
the concatenation of the dropped children's expected sets. -/
theorem claim_C4 (s : List Call) (p : Option Record) :
    Call.next (.Any s) p =
      (.Any ((s.filter (fun d => ((d.next p).2).isNone)).map (fun d => (d.next p).1)),
       if s.any (fun d => ((d.next p).2).isNone) then none
       else if s.any (fun d => decide ((d.next p).2 = some [])) then some []
       else some (s.flatMap (fun d => ((d.next p).2).getD []))) := by
  simp only [Call.next, nextAnyGo_spec]
  by_cases h1 : s.any (fun d => ((d.next p).2).isNone) <;>
    by_cases h2 : s.any (fun d => decide ((d.next p).2 = some [])) <;>
      simp [h1, h2]


/-! ### Recording substrate -/

/-- `Local::take_actual` and `Global::take_actual` from `src/records.rs`
(lines 41-43 and 63-65): `mem::take` on the contents of the active storage
cell swaps in an empty vector and returns the prior contents; the `unwrap` on
an inactive (`None`) cell is a panic, modelled as the outer `none`. -/
def takeActual : Option (List Record) → Option (List Record × Option (List Record))
  | none => none
  | some v => some (v, some [])

/-- The `ToCall` implementation for `Call` (`src/lib.rs` lines 341-345):
`self.clone()`; under value semantics a clone is the same value. -/
def toCallOfCall (c : Call) : Call := c

/-- The `ToCall` implementation for `&T` (`src/lib.rs` lines 335-339):
delegates to the referent's implementation. -/
def toCallOfRef (c : Call) : Call := toCallOfCall c

/-- `CallRecorder::result_with_msg` (`src/lib.rs` lines 138-143) as a state
transformer over the active storage: convert the expectation via `ToCall`,
drain the storage exactly once via `take_actual`, and verify; returns the
verification result together with the storage state after the call (`none`
models the panic of draining an inactive storage). -/
def resultWithMsg (st : Option (List Record)) (expect : Call) (msg : String) :
    Option (Except CallMismatchError Unit × Option (List Record)) :=
  match takeActual st with
  | none => none
  | some (actual, st₁) => some (Call.verify (toCallOfCall expect) actual msg, st₁)

/-- Appending one record to an active storage cell (the `actual.push(record)`
of `Records::push`, as it affects the receiving storage). -/
def pushEvent (st : Option (List Record)) (r : Record) : Option (List Record) :=
  match st with
  | some v => some (v ++ [r])
  | none => none

theorem foldl_pushEvent (rs : List Record) :
    ∀ v, rs.foldl pushEvent (some v) = some (v ++ rs) := by
  induction rs with
  | nil => intro v; simp
  | cons r rest ih =>
    intro v
    simp only [List.foldl_cons, pushEvent]
    rw [ih (v ++ [r])]
    simp

/-- Claim C6: each `verify` call drains the active storage exactly once via
`take`, which swaps the contents for an empty container and returns the prior
contents; immediately after any verify the active storage is `Some(empty)`,
and the verification sees exactly the events pushed since the previous drain
(or session start). -/
theorem claim_C6 (v rs : List Record) (e : Call) (m : String) :
    takeActual (some v) = some (v, some []) ∧
    takeActual none = none ∧
    resultWithMsg (some v) e m = some (Call.verify e v m, some []) ∧
    rs.foldl pushEvent (some []) = some rs ∧
    resultWithMsg (rs.foldl pushEvent (some [])) e m
      = some (Call.verify e rs m, some []) := by
  refine ⟨rfl, rfl, rfl, ?_, ?_⟩
  · simpa using foldl_pushEvent rs []
  · rw [foldl_pushEvent rs []]
    simp [resultWithMsg, takeActual, toCallOfCall]

/-- The two storage scopes consulted by `Records::push`: the calling thread's
thread-local cell `ACTUAL_LOCAL` and the process-wide cell `ACTUAL_GLOBAL`
(`src/records.rs` lines 16-21), each `None` when no session of that scope is
active. -/
structure PushState where
  localSlot : Option (List Record)
  globalSlot : Option (List Record)
deriving DecidableEq, Repr

/-- `Records::push` (`src/records.rs` lines 82-105): append the record to the
thread-local storage if one is active, else to the process-wide storage if it
is active, else panic with "`CallRecorder` is not initialized." (modelled as
`none`). -/
def Records.push (st : PushState) (r : Record) : Option PushState :=
  match st.localSlot with
  | some v => some ⟨some (v ++ [r]), st.globalSlot⟩
  | none =>
    match st.globalSlot with
    | some g => some ⟨none, some (g ++ [r])⟩
    | none => none

/-- Claim C7: a recorded call is appended to the thread-scoped storage if one
is active; otherwise to the process-scoped storage if active; otherwise the
push panics ("not initialized") — it never silently succeeds and never
appends the record anywhere. -/
theorem claim_C7 (st : PushState) (r : Record) :
    (∀ v, st.localSlot = some v →
      Records.push st r = some ⟨some (v ++ [r]), st.globalSlot⟩) ∧
    (∀ g, st.localSlot = none → st.globalSlot = some g →
      Records.push st r = some ⟨none, some (g ++ [r])⟩) ∧
    (st.localSlot = none → st.globalSlot = none → Records.push st r = none) := by
  refine ⟨?_, ?_, ?_⟩
  · intro v hv
    simp [Records.push, hv]
  · intro g hl hg
    simp [Records.push, hl, hg]
  · intro hl hg
    simp [Records.push, hl, hg]

/-- Witness for C7: a push with an active thread-local session appends there;
with only the global session active it appends there; with no session at all
it panics. -/
theorem claim_C7_witness :
    Records.push ⟨some [], some []⟩ (wRec "a") = some ⟨some [wRec "a"], some []⟩ ∧
    Records.push ⟨none, some []⟩ (wRec "a") = some ⟨none, some [wRec "a"]⟩ ∧
    Records.push ⟨none, none⟩ (wRec "a") = none := by
  refine ⟨?_, ?_, ?_⟩
  · simpa using (claim_C7 ⟨some [], some []⟩ (wRec "a")).1 [] rfl
  · simpa using (claim_C7 ⟨none, some []⟩ (wRec "a")).2.1 [] rfl rfl
  · exact (claim_C7 ⟨none, none⟩ (wRec "a")).2.2 rfl rfl


/-! ### The process-scoped slot as a transition system -/

/-- Events on the process-scoped slot: `acquire t` models `Global::init`
claiming the slot for session `t` (`src/records.rs` lines 54-62), `release t`
models `Drop for Global` clearing it (lines 67-72). -/
inductive GEvent where
  | acquire (t : Nat)
  | release (t : Nat)
deriving DecidableEq, Repr

/-- One step of the process-scoped slot.  The mutex serializes steps, and the
`while actual.is_some() { wait }` loop of `Global::init` means an `acquire`
only fires when the slot is empty (a blocked acquirer is simply not a
transition, modelled as `none`); `release` by the holder clears the slot.
The holder set is modelled as a list so mutual exclusion is a theorem about
reachable states rather than being baked into the state type. -/
def gstep : List Nat → GEvent → Option (List Nat)
  | holders, .acquire t => if holders.isEmpty then some [t] else none
  | holders, .release t => if holders = [t] then some [] else none

/-- Run a sequence of slot events from a starting state; `none` when some
event cannot fire. -/
def gvalidRun : List Nat → List GEvent → Option (List Nat)
  | s, [] => some s
  | s, e :: es =>
    match gstep s e with
    | some s₁ => gvalidRun s₁ es
    | none => none

theorem gvalidRun_append (s : List Nat) (xs ys : List GEvent) :
    gvalidRun s (xs ++ ys) =
      match gvalidRun s xs with
      | some m => gvalidRun m ys
      | none => none := by
  induction xs generalizing s with
  | nil => simp [gvalidRun]
  | cons e rest ih =>
    simp only [List.cons_append, gvalidRun]
    cases gstep s e with
    | none => simp
    | some s₁ => simp [ih s₁]

theorem gstep_length (s s₁ : List Nat) (e : GEvent) (h : gstep s e = some s₁) :
    s₁.length ≤ 1 := by
  cases e with
  | acquire t =>
    simp only [gstep] at h
    split at h
    · cases h; simp
    · cases h
  | release t =>
    simp only [gstep] at h
    split at h
    · cases h; simp
    · cases h

theorem gvalidRun_length (es : List GEvent) :
    ∀ s m, gvalidRun s es = some m → s.length ≤ 1 → m.length ≤ 1 := by
  induction es with
  | nil => intro s m h hs; cases h; exact hs
  | cons e rest ih =>
    intro s m h hs
    simp only [gvalidRun] at h
    cases hst : gstep s e with
    | none => rw [hst] at h; cases h
    | some s₁ =>
      rw [hst] at h
      exact ih s₁ m h (gstep_length s s₁ e hst)

theorem no_acquire_while_held (es : List GEvent) (s : List Nat) (hs : s ≠ [])
    (m : List Nat) (hrun : gvalidRun s es = some m)
    (j t : Nat) (hj : es[j]? = some (.acquire t)) :
    ∃ k u, k < j ∧ es[k]? = some (GEvent.release u) := by
  cases es with
  | nil => simp at hj
  | cons e rest =>
    cases e with
    | acquire a =>
      exfalso
      simp only [gvalidRun, gstep] at hrun
      rw [if_neg (by simpa using hs)] at hrun
      cases hrun
    | release u =>
      cases j with
      | zero => simp at hj
      | succ j₁ =>
        exact ⟨0, u, Nat.succ_pos j₁, by simp⟩

/-- Claim C8: process-scoped sessions are mutually exclusive: in every valid
run of the slot (acquisition fires only when the previous session has
released, which is what blocking on the condition variable enforces), the
slot never holds more than one session, between any two acquisitions there is
a release, and a release by the holder clears the slot. -/
theorem claim_C8 (es : List GEvent) (s₁ : List Nat) (i j t u : Nat)
    (hrun : gvalidRun [] es = some s₁) (hij : i < j)
    (hi : es[i]? = some (.acquire t)) (hj : es[j]? = some (.acquire u)) :
    (∀ n m, gvalidRun [] (es.take n) = some m → m.length ≤ 1) ∧
    (∃ k w, i < k ∧ k < j ∧ es[k]? = some (GEvent.release w)) ∧
    (∀ w, gstep [w] (.release w) = some []) := by
  refine ⟨?_, ?_, ?_⟩
  · intro n m h
    exact gvalidRun_length (es.take n) [] m h (by simp)
  · have hilen : i < es.length := (List.getElem?_eq_some.mp hi).1
    have hie : es[i] = .acquire t := by
      have := List.getElem?_eq_getElem hilen
      rw [hi] at this
      exact (Option.some_inj.mp this).symm
    have hsplit : es = es.take i ++ es[i] :: es.drop (i + 1) := by
      conv_lhs => rw [← List.take_append_drop i es]
      rw [List.drop_eq_getElem_cons hilen]
    rw [hsplit, gvalidRun_append] at hrun
    cases h0 : gvalidRun [] (es.take i) with
    | none => rw [h0] at hrun; cases hrun
    | some m0 =>
      rw [h0] at hrun
      simp only [gvalidRun, hie, gstep] at hrun
      by_cases hm0 : m0.isEmpty
      · rw [if_pos hm0] at hrun
        have hrest : gvalidRun [t] (es.drop (i + 1)) = some s₁ := hrun
        have hdj : (es.drop (i + 1))[j - (i + 1)]? = some (GEvent.acquire u) := by
          rw [List.getElem?_drop]
          have : i + 1 + (j - (i + 1)) = j := by omega
          rw [this]
          exact hj
        obtain ⟨k₁, w, hk₁, hke⟩ :=
          no_acquire_while_held (es.drop (i + 1)) [t] (by simp) s₁ hrest
            (j - (i + 1)) u hdj
        refine ⟨i + 1 + k₁, w, by omega, by omega, ?_⟩
        rw [← List.getElem?_drop]
        exact hke
      · rw [if_neg hm0] at hrun
        cases hrun
  · intro w
    simp [gstep]

/-- Witness for C8: the run `acquire 0, release 0, acquire 1` is valid; its
two acquisitions are separated by the release at position 1. -/
theorem claim_C8_witness :
    (∀ n m, gvalidRun []
        ([GEvent.acquire 0, GEvent.release 0, GEvent.acquire 1].take n) = some m →
        m.length ≤ 1) ∧
    (∃ k w, 0 < k ∧ k < 2 ∧
      ([GEvent.acquire 0, GEvent.release 0, GEvent.acquire 1])[k]? =
        some (GEvent.release w)) ∧
    (∀ w, gstep [w] (.release w) = some []) :=
  claim_C8 [GEvent.acquire 0, GEvent.release 0, GEvent.acquire 1] [1] 0 2 0 1
    (by decide) (by decide) (by decide) (by decide)


/-! ### Diagnostic formatter -/

/-- A concrete record with a captured backtrace, for the formatter claims. -/
def wRecB (s : String) : Record := ⟨s, "lib.rs", 10, true, 0⟩

/-- Structured content of the per-event backtrace section printed by
`Records::fmt_backtrace` (`src/records.rs` lines 156-185): the count of
events omitted before the window (`0` meaning no omission line), the indices
of the trace events whose backtrace is printed, and either the count of
events omitted after the window (`some n`) or `none` for the end marker. -/
structure BtView where
  omittedBefore : Nat
  shown : List Nat
  omittedAfter : Option Nat
deriving DecidableEq, Repr

/-- `Records::fmt_backtrace`: `start` is `mismatch_index - around` clamped to
zero, `end` is `min(mismatch_index + 1, len)`; the loop prints the events of
`start..end`; the end marker is printed iff `end == len`, else the
omitted-after count. -/
def fmtBacktraceView (len mismatchIndex around : Nat) : BtView :=
  let start := if mismatchIndex > around then mismatchIndex - around else 0
  let stop := min (mismatchIndex + 1) len
  ⟨start, List.range' start (stop - start),
    if stop = len then none else some (len - stop)⟩

/-- The backtrace-section part of `CallMismatchError::fmt_with`
(`src/lib.rs` lines 448-459): with `around = 5`, the per-event backtrace
section is rendered iff the backtrace flag is set and some record of the
trace has a captured backtrace (`Records::has_bakctrace`,
`src/records.rs` lines 187-191). -/
def fmtWithBacktraceSection (backtrace : Bool) (actual : List Record)
    (mismatchIndex : Nat) : Option BtView :=
  if backtrace && actual.any (fun r => r.backtraceCaptured) then
    some (fmtBacktraceView actual.length mismatchIndex 5)
  else none

/-- Counterexample to claim C9 as stated: with backtrace output enabled and a
three-event trace all of whose events carry captured backtraces, a mismatch
at index 0 renders a backtrace section showing only event 0 — events 1 and 2,
although within 5 events after the mismatch index and present in the trace,
are omitted (the section ends at `min(mismatch_index + 1, len)`, not at
`mismatch_index + 5 + 1`). -/
theorem claim_C9_counterexample :
    fmtWithBacktraceSection true [wRecB "a", wRecB "b", wRecB "c"] 0 =
      some ⟨0, [0], some 2⟩ ∧
    (1 : Nat) < ([wRecB "a", wRecB "b", wRecB "c"] : List Record).length ∧
    (1 : Nat) ≤ 0 + 5 ∧
    (1 : Nat) ∉ ([0] : List Nat) := by
  refine ⟨?_, by decide, by decide, by decide⟩
  decide

/-- Claim C9 (amended): when backtrace output is enabled and at least one
event in the whole trace carries a captured backtrace (and only then), the
rendered report contains a per-event backtrace section covering exactly the
trace events from 5 before `mismatch_index` through `mismatch_index` itself
(truncated to the trace; never the events after the mismatch), with the count
of events omitted before that window, and after it either the count of the
remaining events or the end marker when none remain. -/
theorem claim_C9 (backtrace : Bool) (actual : List Record) (mi : Nat) :
    ((fmtWithBacktraceSection backtrace actual mi).isSome ↔
      backtrace = true ∧ actual.any (fun r => r.backtraceCaptured) = true) ∧
    (∀ v, fmtWithBacktraceSection backtrace actual mi = some v →
      (∀ k, k ∈ v.shown ↔ mi - 5 ≤ k ∧ k ≤ mi ∧ k < actual.length) ∧
      v.omittedBefore = mi - 5 ∧
      (v.omittedAfter = none ↔ actual.length ≤ mi + 1) ∧
      (∀ n, v.omittedAfter = some n → n = actual.length - (mi + 1) ∧
        mi + 1 < actual.length)) := by
  constructor
  · simp only [fmtWithBacktraceSection]
    split
    · rename_i h
      rw [Bool.and_eq_true] at h
      simp [h.1, h.2]
    · rename_i h
      simp only [Option.isSome_none]
      constructor
      · intro hh
        exact absurd hh (by simp)
      · intro hh
        exact absurd (by rw [hh.1, hh.2]; rfl : (backtrace && actual.any fun r => r.backtraceCaptured) = true) h
  · intro v hv
    simp only [fmtWithBacktraceSection] at hv
    split at hv
    · have hv' : v = fmtBacktraceView actual.length mi 5 := (Option.some_inj.mp hv).symm
      subst hv'
      simp only [fmtBacktraceView]
      refine ⟨?_, ?_, ?_, ?_⟩
      · intro k
        have hstart : (if mi > 5 then mi - 5 else 0) = mi - 5 := by split <;> omega
        rw [List.mem_range'_1, hstart, Nat.min_def]
        split <;> omega
      · split <;> omega
      · by_cases h1 : mi + 1 ≤ actual.length
        · rw [Nat.min_eq_left h1]
          by_cases h2 : mi + 1 = actual.length
          · simp [h2]
          · rw [if_neg h2]
            simp
            omega
        · rw [Nat.min_eq_right (by omega)]
          simp
          omega
      · intro n hn
        by_cases h1 : mi + 1 ≤ actual.length
        · rw [Nat.min_eq_left h1] at hn
          by_cases h2 : mi + 1 = actual.length
          · rw [if_pos h2] at hn
            cases hn
          · rw [if_neg h2] at hn
            have := Option.some_inj.mp hn
            omega
        · rw [Nat.min_eq_right (by omega)] at hn
          rw [if_pos rfl] at hn
          cases hn
    · cases hv

/-- Witness for C9 at a one-event trace with captured backtrace and mismatch
index 0: the section exists and shows exactly event 0 with the end marker. -/
theorem claim_C9_witness :
    ((0 : Nat) ∈ (⟨0, [0], none⟩ : BtView).shown ↔
      0 - 5 ≤ 0 ∧ 0 ≤ 0 ∧ 0 < ([wRecB "a"] : List Record).length) ∧
    ((⟨0, [0], none⟩ : BtView).omittedAfter = none ↔
      ([wRecB "a"] : List Record).length ≤ 0 + 1) :=
  have h := (claim_C9 true [wRecB "a"] 0).2 ⟨0, [0], none⟩ (by decide)
  ⟨h.1 0, h.2.2.1⟩

/-! ### Pattern reuse across verifications -/

/-- `CallRecorder::verify`/`verify_with_msg` called with a borrowed pattern
`&p`: the `&T` implementation of `ToCall` forwards to the referent and the
`Call` implementation clones, so the matcher operates on a fresh tree; the
pair returned models (the caller's pattern after the call, the result). -/
def verifyByRef (p : Call) (actual : List Record) (msg : String) :
    Call × Except CallMismatchError Unit :=
  (p, Call.verify (toCallOfRef p) actual msg)

/-- Claim C10: `verify` never mutates the caller-supplied pattern: the
destructive matching operates only on the fresh tree obtained from `ToCall`
(a clone of the pattern value), so the caller's pattern is unchanged after
any number of verifications and each verification behaves as if run on a
fresh copy of `p`. -/
theorem claim_C10 (p : Call) (trs : List (List Record)) (msg : String) :
    toCallOfCall p = p ∧ toCallOfRef p = p ∧
    trs.foldl (fun q tr => (verifyByRef q tr msg).1) p = p ∧
    (∀ tr, (verifyByRef p tr msg).2 = Call.verify p tr msg) := by
  refine ⟨rfl, rfl, ?_, fun tr => rfl⟩
  induction trs with
  | nil => rfl
  | cons tr rest ih => exact ih

end AssertCall
